import Mathlib

set_option maxHeartbeats 1000000

/-!
Verification of the lossy float-compression codec in
`src/float_compression.py` (with its callers in `src/utils.py`).

A 32-bit float is represented throughout by its IEEE-754 bit pattern, a
natural number below `2 ^ 32`; every operation of the codec is a pure
bit-level transformation of that pattern, so the embedding works on the
patterns directly.  Python's unbounded integers are embedded as `Nat`;
`int.to_bytes(3, 'big')`, which raises `OverflowError` when the value does
not fit, is embedded as an `Option`-returning function.
-/

/-- The `(sign_bit, exponent_bits, non_zero_mantissa, trailing_zeroes)`
tuple returned by `extract_components` and `unpack_components`. -/
structure Components where
  sign_bit : Nat
  exponent_bits : Nat
  non_zero_mantissa : Nat
  trailing_zeroes : Nat
  deriving DecidableEq, Repr

/-- The trailing-zero loop of `extract_components`:
`while (mantissa_zeroed & 1) == 0: trailing_zeroes += 1; mantissa_zeroed >>= 1`,
returning the final `(trailing_zeroes, mantissa_zeroed)`.  The loop is only
entered on a non-zero value, and a non-zero even value stays non-zero after a
halving, so the `m ≠ 0` conjunct added to the loop condition never changes the
result on the states the program reaches; `fuel` (instantiated with the
initial value, an upper bound on the iteration count) makes the recursion
structural. -/
def tzLoopAux : Nat → Nat → Nat × Nat
  | 0, m => (0, m)
  | fuel + 1, m =>
    if m ≠ 0 ∧ m % 2 = 0 then
      let p := tzLoopAux fuel (m / 2)
      (p.1 + 1, p.2)
    else (0, m)

/-- The trailing-zero loop run on `m` with sufficient fuel. -/
def tzLoop (m : Nat) : Nat × Nat := tzLoopAux m m

/-- `extract_components(x, num_bits)` from `src/float_compression.py`, acting
on the 32-bit pattern `x_int` of the input float.  The Python mask
`mantissa & ~((1 << num_bits) - 1)` clears the low `num_bits` bits of the
non-negative `mantissa`, i.e. equals `(mantissa >>> num_bits) <<< num_bits`. -/
def extract_components (x_int : Nat) (num_bits : Nat) : Components :=
  let sign_bit := (x_int >>> 31) &&& 0x1
  let exponent_bits := (x_int >>> 23) &&& 0xFF
  let mantissa := x_int &&& 0x7FFFFF
  if (mantissa = 0 ∧ exponent_bits = 0) ∨ exponent_bits = 0xFF then
    ⟨sign_bit, exponent_bits, 0, 0⟩
  else
    let mantissa_zeroed := (mantissa >>> num_bits) <<< num_bits
    let r := if mantissa_zeroed ≠ 0 then tzLoop mantissa_zeroed else (0, mantissa_zeroed)
    ⟨sign_bit, exponent_bits, r.2 &&& 0x7FF, r.1⟩

/-- `p.to_bytes(3, byteorder='big')`: the 3 big-endian bytes of `p`, or
`none` for the `OverflowError` Python raises when `p` needs more than
3 bytes. -/
def to_bytes_3_be (p : Nat) : Option (List Nat) :=
  if p < 0x1000000 then some [(p >>> 16) &&& 0xFF, (p >>> 8) &&& 0xFF, p &&& 0xFF]
  else none

/-- `pack_components` from `src/float_compression.py`. -/
def pack_components (sign_bit exponent_bits non_zero_mantissa trailing_zeroes : Nat) :
    Option (List Nat) :=
  to_bytes_3_be ((sign_bit <<< 23) ||| (exponent_bits <<< 15) |||
    (non_zero_mantissa <<< 4) ||| (trailing_zeroes &&& 0xF))

/-- `int.from_bytes(bs, byteorder='big')` on a list of bytes. -/
def from_bytes_be (bs : List Nat) : Nat := bs.foldl (fun acc b => acc * 256 + b) 0

/-- `unpack_components` from `src/float_compression.py`. -/
def unpack_components (packed : Nat) : Components :=
  ⟨(packed >>> 23) &&& 0x1, (packed >>> 15) &&& 0xFF,
   (packed >>> 4) &&& 0x7FF, packed &&& 0xF⟩

/-- `reconstruct_from_components` from `src/float_compression.py`, returning
the 32-bit pattern of the reconstructed float
(`np.array([x_int], dtype=np.uint32).view(np.float32)` is a bit-cast, so the
pattern of the returned float is `x_int` itself). -/
def reconstruct_from_components
    (sign_bit exponent_bits non_zero_mantissa trailing_zeroes : Nat) : Nat :=
  let mantissa := non_zero_mantissa <<< trailing_zeroes
  (sign_bit <<< 31) ||| (exponent_bits <<< 23) ||| mantissa

/-- `load_packed_from_file` from `src/float_compression.py`, acting on the
file's byte stream: `f.read(3)` returns the next `min(3, remaining)` bytes
and the empty read ends the loop, so the stream is consumed in chunks of at
most 3 bytes, each converted big-endian and appended. -/
def load_packed_from_stream : List Nat → List Nat
  | [] => []
  | [b0] => [from_bytes_be [b0]]
  | [b0, b1] => [from_bytes_be [b0, b1]]
  | b0 :: b1 :: b2 :: rest => from_bytes_be [b0, b1, b2] :: load_packed_from_stream rest

/-- One element of the compression pipeline of `benchmark_compression` in
`src/utils.py`: `pack_components(*extract_components(x, num_bits))`. -/
def encode_one (x_int num_bits : Nat) : Option (List Nat) :=
  let c := extract_components x_int num_bits
  pack_components c.sign_bit c.exponent_bits c.non_zero_mantissa c.trailing_zeroes

/-- One element of the decompression pipeline of `benchmark_decompression` in
`src/utils.py`: unpack a 3-byte big-endian record and reconstruct the float's
bit pattern. -/
def decode_one (bs : List Nat) : Nat :=
  let c := unpack_components (from_bytes_be bs)
  reconstruct_from_components c.sign_bit c.exponent_bits c.non_zero_mantissa c.trailing_zeroes

/-- The complete per-value round trip: extract, pack, read the 3 bytes back
big-endian, unpack, reconstruct; `none` when packing overflows. -/
def roundTripBits (x_int num_bits : Nat) : Option Nat :=
  (encode_one x_int num_bits).map decode_one

/-- The list comprehension
`[pack_components(*extract_components(x, num_bits)) for x in data]` of
`benchmark_compression` in `src/utils.py`; an `OverflowError` from any
element aborts the whole comprehension, hence the `Option`. -/
def encode_sequence : List Nat → Nat → Option (List (List Nat))
  | [], _ => some []
  | x :: xs, n =>
    match encode_one x n, encode_sequence xs n with
    | some b, some rest => some (b :: rest)
    | _, _ => none

/-! ### Bridging bitwise operations to `/`, `%`, `*` arithmetic -/

theorem and_mask_one (x : Nat) : x &&& 1 = x % 2 := Nat.and_one_is_mod x

theorem and_mask_fifteen (x : Nat) : x &&& 15 = x % 16 := by
  have h := Nat.and_pow_two_sub_one_eq_mod x 4
  norm_num at h
  exact h

theorem and_mask_byte (x : Nat) : x &&& 255 = x % 256 := by
  have h := Nat.and_pow_two_sub_one_eq_mod x 8
  norm_num at h
  exact h

theorem and_mask_eleven_bits (x : Nat) : x &&& 2047 = x % 2048 := by
  have h := Nat.and_pow_two_sub_one_eq_mod x 11
  norm_num at h
  exact h

theorem and_mask_mantissa (x : Nat) : x &&& 8388607 = x % 8388608 := by
  have h := Nat.and_pow_two_sub_one_eq_mod x 23
  norm_num at h
  exact h

/-- Bitwise or is addition when the high summand is a multiple of `2 ^ k` and
the low summand fits below `2 ^ k`. -/
theorem lor_eq_add_of_lt {a b k : Nat} (ha : a % 2 ^ k = 0) (hb : b < 2 ^ k) :
    a ||| b = a + b := by
  obtain ⟨q, rfl⟩ : 2 ^ k ∣ a := Nat.dvd_of_mod_eq_zero ha
  exact (Nat.mul_add_lt_is_or hb q).symm

/-! ### The trailing-zero loop -/

theorem tzLoopAux_spec (fuel : Nat) : ∀ m : Nat, m ≤ fuel →
    (tzLoopAux fuel m).2 * 2 ^ (tzLoopAux fuel m).1 = m ∧
    (m ≠ 0 → (tzLoopAux fuel m).2 % 2 = 1) := by
  induction fuel with
  | zero =>
    intro m hm
    have hm0 : m = 0 := Nat.le_zero.mp hm
    subst hm0
    exact ⟨rfl, fun h => absurd rfl h⟩
  | succ n ih =>
    intro m hm
    by_cases h : m ≠ 0 ∧ m % 2 = 0
    · have hrec : m / 2 ≤ n := by omega
      obtain ⟨h1, h2⟩ := ih (m / 2) hrec
      have hstep : tzLoopAux (n + 1) m =
          ((tzLoopAux n (m / 2)).1 + 1, (tzLoopAux n (m / 2)).2) := by
        simp only [tzLoopAux, if_pos h]
      rw [hstep]
      constructor
      · simp only [pow_succ]
        have : (tzLoopAux n (m / 2)).2 * (2 ^ (tzLoopAux n (m / 2)).1 * 2) =
            (tzLoopAux n (m / 2)).2 * 2 ^ (tzLoopAux n (m / 2)).1 * 2 := by ring
        rw [this, h1]
        omega
      · intro _
        exact h2 (by omega)
    · have hstep : tzLoopAux (n + 1) m = (0, m) := by
        simp only [tzLoopAux, if_neg h]
      rw [hstep]
      exact ⟨by simp, fun hm0 => by omega⟩

theorem tzLoop_mul_pow (m : Nat) : (tzLoop m).2 * 2 ^ (tzLoop m).1 = m :=
  (tzLoopAux_spec m m (Nat.le_refl m)).1

theorem tzLoop_odd {m : Nat} (h : m ≠ 0) : (tzLoop m).2 % 2 = 1 :=
  (tzLoopAux_spec m m (Nat.le_refl m)).2 h

theorem tzLoop_snd_le (m : Nat) : (tzLoop m).2 ≤ m := by
  have h := tzLoop_mul_pow m
  have : 0 < 2 ^ (tzLoop m).1 := Nat.pos_pow_of_pos _ (by norm_num)
  nlinarith

theorem tzLoop_pow_le {m : Nat} (h : m ≠ 0) : 2 ^ (tzLoop m).1 ≤ m := by
  have h1 := tzLoop_mul_pow m
  have h2 := tzLoop_odd h
  have : 1 ≤ (tzLoop m).2 := by omega
  nlinarith [Nat.pos_pow_of_pos (tzLoop m).1 (show 0 < 2 by norm_num)]

theorem tzLoop_zero : tzLoop 0 = (0, 0) := rfl

/-! ### Arithmetic characterization of the extractor -/

/-- `extract_components` with all bit operations rewritten to division and
remainder arithmetic.  When the cleared mantissa is zero the skipped loop and
`tzLoop 0 = (0, 0)` agree, so the inner guard collapses. -/
theorem extract_components_eq (x n : Nat) :
    extract_components x n =
      if (x % 2 ^ 23 = 0 ∧ x / 2 ^ 23 % 256 = 0) ∨ x / 2 ^ 23 % 256 = 255 then
        ⟨x / 2 ^ 31 % 2, x / 2 ^ 23 % 256, 0, 0⟩
      else
        ⟨x / 2 ^ 31 % 2, x / 2 ^ 23 % 256,
         (tzLoop (x % 2 ^ 23 / 2 ^ n * 2 ^ n)).2 % 2048,
         (tzLoop (x % 2 ^ 23 / 2 ^ n * 2 ^ n)).1⟩ := by
  unfold extract_components
  simp only [Nat.shiftRight_eq_div_pow, Nat.shiftLeft_eq, and_mask_one, and_mask_byte,
    and_mask_mantissa, and_mask_eleven_bits]
  norm_num
  by_cases hsp : (x % 8388608 = 0 ∧ x / 8388608 % 256 = 0) ∨ x / 8388608 % 256 = 255
  · rw [if_pos hsp, if_pos hsp]
  · rw [if_neg hsp, if_neg hsp]
    by_cases hmz : x % 8388608 / 2 ^ n = 0
    · rw [if_pos hmz, hmz]
      simp [tzLoop_zero]
    · rw [if_neg hmz]

/-! ### Packing, byte serialization, unpacking -/

/-- The 24-bit word assembled by `pack_components`, as a sum of its disjoint
fields. -/
theorem pack_or_eq_sum (s e m t : Nat) (hs : s ≤ 1) (he : e ≤ 255) (hm : m ≤ 2047) :
    (s <<< 23) ||| (e <<< 15) ||| (m <<< 4) ||| (t &&& 15) =
      s * 8388608 + e * 32768 + m * 16 + t % 16 := by
  rw [Nat.shiftLeft_eq, Nat.shiftLeft_eq, Nat.shiftLeft_eq, and_mask_fifteen]
  norm_num
  have h1 : s * 8388608 ||| e * 32768 = s * 8388608 + e * 32768 :=
    lor_eq_add_of_lt (k := 23) (by omega) (by omega)
  have h2 : s * 8388608 + e * 32768 ||| m * 16 = s * 8388608 + e * 32768 + m * 16 :=
    lor_eq_add_of_lt (k := 15) (by omega) (by omega)
  have h3 : s * 8388608 + e * 32768 + m * 16 ||| t % 16 =
      s * 8388608 + e * 32768 + m * 16 + t % 16 :=
    lor_eq_add_of_lt (k := 4) (by omega) (by omega)
  rw [h1, h2, h3]

theorem to_bytes_3_be_eq {p : Nat} (hp : p < 16777216) :
    to_bytes_3_be p = some [p / 65536, p / 256 % 256, p % 256] := by
  unfold to_bytes_3_be
  rw [if_pos (by omega)]
  rw [Nat.shiftRight_eq_div_pow, Nat.shiftRight_eq_div_pow, and_mask_byte, and_mask_byte,
    and_mask_byte]
  norm_num
  omega

theorem from_bytes_be_three (b2 b1 b0 : Nat) :
    from_bytes_be [b2, b1, b0] = (b2 * 256 + b1) * 256 + b0 := by
  simp [from_bytes_be]

theorem unpack_components_arith (p : Nat) :
    unpack_components p = ⟨p / 8388608 % 2, p / 32768 % 256, p / 16 % 2048, p % 16⟩ := by
  unfold unpack_components
  rw [Nat.shiftRight_eq_div_pow, Nat.shiftRight_eq_div_pow, Nat.shiftRight_eq_div_pow,
    and_mask_one, and_mask_byte, and_mask_eleven_bits, and_mask_fifteen]

/-- Claim C2: for every field tuple with sign in `{0, 1}`, exponent in
`[0, 255]`, residual mantissa in `[0, 2047]` and trailing-zero count in
`[0, 15]`, `unpack_components` applied to the big-endian integer of the
3 bytes returned by `pack_components` on that tuple returns exactly the
same tuple. -/
theorem unpack_pack_components (s e m t : Nat)
    (hs : s ≤ 1) (he : e ≤ 255) (hm : m ≤ 2047) (ht : t ≤ 15) :
    (pack_components s e m t).map (fun bs => unpack_components (from_bytes_be bs)) =
      some ⟨s, e, m, t⟩ := by
  unfold pack_components
  rw [pack_or_eq_sum s e m t hs he hm]
  set P := s * 8388608 + e * 32768 + m * 16 + t % 16 with hP
  rw [to_bytes_3_be_eq (by omega)]
  simp only [Option.map_some']
  rw [from_bytes_be_three]
  have hPP : (P / 65536 * 256 + P / 256 % 256) * 256 + P % 256 = P := by omega
  rw [hPP, unpack_components_arith]
  simp only [Option.some.injEq, Components.mk.injEq]
  omega

/-- Witness for C2 at the concrete tuple `(1, 200, 1000, 7)`. -/
theorem unpack_pack_components_witness :
    (1 : Nat) ≤ 1 ∧ (200 : Nat) ≤ 255 ∧ (1000 : Nat) ≤ 2047 ∧ (7 : Nat) ≤ 15 ∧
    (pack_components 1 200 1000 7).map (fun bs => unpack_components (from_bytes_be bs)) =
      some ⟨1, 200, 1000, 7⟩ :=
  ⟨by decide, by decide, by decide, by decide,
    unpack_pack_components 1 200 1000 7 (by decide) (by decide) (by decide) (by decide)⟩

/-- Claim C6: for inputs within their field widths, `pack_components`
returns exactly the 3 big-endian bytes of the 24-bit integer
`(sign <<< 23) ||| (exponent <<< 15) ||| (residual <<< 4) ||| count`, and the
stored count field is `t % 16` (silent wrap), so unpacking yields `t % 16`
rather than `t` when `t > 15`. -/
theorem pack_components_layout (s e m t : Nat)
    (hs : s ≤ 1) (he : e ≤ 255) (hm : m ≤ 2047) :
    pack_components s e m t =
      some [(s * 8388608 + e * 32768 + m * 16 + t % 16) / 65536,
            (s * 8388608 + e * 32768 + m * 16 + t % 16) / 256 % 256,
            (s * 8388608 + e * 32768 + m * 16 + t % 16) % 256] ∧
    from_bytes_be
        [(s * 8388608 + e * 32768 + m * 16 + t % 16) / 65536,
         (s * 8388608 + e * 32768 + m * 16 + t % 16) / 256 % 256,
         (s * 8388608 + e * 32768 + m * 16 + t % 16) % 256] =
      (s <<< 23) ||| (e <<< 15) ||| (m <<< 4) ||| (t &&& 15) ∧
    unpack_components ((s <<< 23) ||| (e <<< 15) ||| (m <<< 4) ||| (t &&& 15)) =
      ⟨s, e, m, t % 16⟩ := by
  rw [pack_or_eq_sum s e m t hs he hm]
  unfold pack_components
  rw [pack_or_eq_sum s e m t hs he hm]
  set P := s * 8388608 + e * 32768 + m * 16 + t % 16 with hP
  refine ⟨to_bytes_3_be_eq (by omega), ?_, ?_⟩
  · rw [from_bytes_be_three]
    omega
  · rw [unpack_components_arith]
    simp only [Components.mk.injEq]
    omega

/-- Witness for C6 at the concrete tuple `(0, 128, 1, 22)` of the spec's
`x = 3.0`, `num_bits = 12` scenario, whose count field 22 wraps to 6. -/
theorem pack_components_layout_witness :
    (0 : Nat) ≤ 1 ∧ (128 : Nat) ≤ 255 ∧ (1 : Nat) ≤ 2047 ∧
    (pack_components 0 128 1 22 =
      some [(0 * 8388608 + 128 * 32768 + 1 * 16 + 22 % 16) / 65536,
            (0 * 8388608 + 128 * 32768 + 1 * 16 + 22 % 16) / 256 % 256,
            (0 * 8388608 + 128 * 32768 + 1 * 16 + 22 % 16) % 256] ∧
    from_bytes_be
        [(0 * 8388608 + 128 * 32768 + 1 * 16 + 22 % 16) / 65536,
         (0 * 8388608 + 128 * 32768 + 1 * 16 + 22 % 16) / 256 % 256,
         (0 * 8388608 + 128 * 32768 + 1 * 16 + 22 % 16) % 256] =
      (0 <<< 23) ||| (128 <<< 15) ||| (1 <<< 4) ||| (22 &&& 15) ∧
    unpack_components ((0 <<< 23) ||| (128 <<< 15) ||| (1 <<< 4) ||| (22 &&& 15)) =
      ⟨0, 128, 1, 22 % 16⟩) :=
  ⟨by decide, by decide, by decide,
    pack_components_layout 0 128 1 22 (by decide) (by decide) (by decide)⟩

/-- Claim C8: for `x = 3.0` (bit pattern `0x40400000`, mantissa `0x400000`)
with `num_bits = 12`, `extract_components` returns exactly
`(sign = 0, exponent = 128, residual = 1, trailing_zeroes = 22)`. -/
theorem extract_components_of_three :
    extract_components 0x40400000 12 = ⟨0, 128, 1, 22⟩ := by decide

/-- Claim C9: `unpack_components` is total on every natural input and each
of its four results is defensively masked into its field width. -/
theorem unpack_components_in_width (p : Nat) :
    (unpack_components p).sign_bit ≤ 1 ∧ (unpack_components p).exponent_bits ≤ 255 ∧
    (unpack_components p).non_zero_mantissa ≤ 2047 ∧
    (unpack_components p).trailing_zeroes ≤ 15 := by
  rw [unpack_components_arith]
  refine ⟨?_, ?_, ?_, ?_⟩ <;> simp <;> omega

/-! ### The full encode/decode pipeline -/

/-- The round trip through pack, 3 big-endian bytes, unpack and reconstruct,
for any extractor output whose fields are in width and whose restored
mantissa stays inside the 23-bit field. -/
theorem roundTrip_formula (x n s e m t : Nat)
    (hext : extract_components x n = ⟨s, e, m, t⟩)
    (hs : s ≤ 1) (he : e ≤ 255) (hm : m ≤ 2047) (ht : t ≤ 15)
    (hmt : m * 2 ^ t < 8388608) :
    roundTripBits x n = some (s * 2147483648 + e * 8388608 + m * 2 ^ t) := by
  simp only [roundTripBits, encode_one, hext]
  unfold pack_components
  rw [pack_or_eq_sum s e m t hs he hm]
  have ht16 : t % 16 = t := by omega
  rw [ht16]
  set P := s * 8388608 + e * 32768 + m * 16 + t with hP
  rw [to_bytes_3_be_eq (by omega)]
  simp only [Option.map_some']
  simp only [decode_one]
  rw [from_bytes_be_three]
  have hPP : (P / 65536 * 256 + P / 256 % 256) * 256 + P % 256 = P := by omega
  rw [hPP, unpack_components_arith]
  have f1 : P / 8388608 % 2 = s := by omega
  have f2 : P / 32768 % 256 = e := by omega
  have f3 : P / 16 % 2048 = m := by omega
  have f4 : P % 16 = t := by omega
  rw [f1, f2, f3, f4]
  simp only [reconstruct_from_components]
  rw [Nat.shiftLeft_eq, Nat.shiftLeft_eq, Nat.shiftLeft_eq]
  norm_num
  have g1 : s * 2147483648 ||| e * 8388608 = s * 2147483648 + e * 8388608 :=
    lor_eq_add_of_lt (k := 31) (by omega) (by omega)
  have g2 : s * 2147483648 + e * 8388608 ||| m * 2 ^ t =
      s * 2147483648 + e * 8388608 + m * 2 ^ t :=
    lor_eq_add_of_lt (k := 23) (by omega) (by omega)
  rw [g1, g2]

/-- Claim C5: a special input (zero mantissa with zero exponent field, or
exponent field 255) is returned immediately as `(sign, exponent, 0, 0)`
without truncation, and encoding then decoding preserves the sign bit and
exponent bits exactly while forcing the reconstructed mantissa to 0. -/
theorem special_values_roundtrip (x n : Nat) (hx : x < 2 ^ 32)
    (hsp : (x % 2 ^ 23 = 0 ∧ x / 2 ^ 23 % 256 = 0) ∨ x / 2 ^ 23 % 256 = 255) :
    extract_components x n = ⟨x / 2 ^ 31, x / 2 ^ 23 % 256, 0, 0⟩ ∧
    roundTripBits x n = some (x / 2 ^ 31 * 2 ^ 31 + x / 2 ^ 23 % 256 * 2 ^ 23) := by
  have hs2 : x / 2 ^ 31 % 2 = x / 2 ^ 31 := by omega
  have hext : extract_components x n = ⟨x / 2 ^ 31, x / 2 ^ 23 % 256, 0, 0⟩ := by
    rw [extract_components_eq, if_pos hsp, hs2]
  refine ⟨hext, ?_⟩
  have h := roundTrip_formula x n _ _ _ _ hext (by omega) (by omega) (by omega) (by omega)
    (by norm_num)
  rw [h]
  simp only [Option.some.injEq]
  omega

/-- Witness for C5 at `x = -inf` (pattern `0xFF800000`), `num_bits = 3`. -/
theorem special_values_roundtrip_witness :
    ((0xFF800000 : Nat) < 2 ^ 32 ∧
      (((0xFF800000 : Nat) % 2 ^ 23 = 0 ∧ (0xFF800000 : Nat) / 2 ^ 23 % 256 = 0) ∨
        (0xFF800000 : Nat) / 2 ^ 23 % 256 = 255)) ∧
    (extract_components 0xFF800000 3 =
        ⟨(0xFF800000 : Nat) / 2 ^ 31, (0xFF800000 : Nat) / 2 ^ 23 % 256, 0, 0⟩ ∧
      roundTripBits 0xFF800000 3 =
        some ((0xFF800000 : Nat) / 2 ^ 31 * 2 ^ 31 +
          (0xFF800000 : Nat) / 2 ^ 23 % 256 * 2 ^ 23)) :=
  ⟨⟨by decide, by decide⟩, special_values_roundtrip 0xFF800000 3 (by decide) (by decide)⟩

/-- Claim C10: for a finite non-special input the residual mantissa is 0 or
odd, and a zero residual forces a zero trailing-zero count. -/
theorem residual_odd_or_zero (x n : Nat) (hx : x < 2 ^ 32) (hn : n ≤ 23)
    (hsp : ¬ ((x % 2 ^ 23 = 0 ∧ x / 2 ^ 23 % 256 = 0) ∨ x / 2 ^ 23 % 256 = 255)) :
    ((extract_components x n).non_zero_mantissa = 0 ∨
      (extract_components x n).non_zero_mantissa % 2 = 1) ∧
    ((extract_components x n).non_zero_mantissa = 0 →
      (extract_components x n).trailing_zeroes = 0) := by
  rw [extract_components_eq, if_neg hsp]
  by_cases hmz : x % 2 ^ 23 / 2 ^ n * 2 ^ n = 0
  · rw [hmz, tzLoop_zero]
    exact ⟨Or.inl rfl, fun _ => rfl⟩
  · have hodd := tzLoop_odd hmz
    dsimp only
    constructor
    · right
      omega
    · intro h0
      omega

/-- Witness for C10 at `x = 3.0` (pattern `0x40400000`), `num_bits = 12`,
where the residual mantissa is the odd value 1. -/
theorem residual_odd_or_zero_witness :
    (0x40400000 : Nat) < 2 ^ 32 ∧ (12 : Nat) ≤ 23 ∧
    ¬ (((0x40400000 : Nat) % 2 ^ 23 = 0 ∧ (0x40400000 : Nat) / 2 ^ 23 % 256 = 0) ∨
        (0x40400000 : Nat) / 2 ^ 23 % 256 = 255) ∧
    (((extract_components 0x40400000 12).non_zero_mantissa = 0 ∨
        (extract_components 0x40400000 12).non_zero_mantissa % 2 = 1) ∧
      ((extract_components 0x40400000 12).non_zero_mantissa = 0 →
        (extract_components 0x40400000 12).trailing_zeroes = 0)) :=
  ⟨by decide, by decide, by decide,
    residual_odd_or_zero 0x40400000 12 (by decide) (by decide) (by decide)⟩

/-- Claim C3 (amended): the trailing-zero count returned by
`extract_components` never exceeds 22, hence never exceeds the 23-bit
mantissa width; it is not in general representable in 4 bits. -/
theorem trailing_zeroes_le (x n : Nat) :
    (extract_components x n).trailing_zeroes ≤ 22 := by
  rw [extract_components_eq]
  split
  · dsimp only
    omega
  · dsimp only
    by_cases hmz : x % 2 ^ 23 / 2 ^ n * 2 ^ n = 0
    · rw [hmz, tzLoop_zero]
      norm_num
    · have h1 := tzLoop_pow_le hmz
      have h2 : x % 2 ^ 23 / 2 ^ n * 2 ^ n ≤ x % 2 ^ 23 := Nat.div_mul_le_self _ _
      have h3 : x % 2 ^ 23 < 2 ^ 23 := Nat.mod_lt _ (by norm_num)
      by_contra hc
      have h4 : (2 : Nat) ^ 23 ≤ 2 ^ (tzLoop (x % 2 ^ 23 / 2 ^ n * 2 ^ n)).1 :=
        Nat.pow_le_pow_right (by norm_num) (by omega)
      omega

/-- Counterexample to C3 as stated: at `x = 3.0` (pattern `0x40400000`) with
`num_bits = 12` the returned trailing-zero count is 22, which exceeds 15 and
is not representable in 4 bits. -/
theorem trailing_zeroes_not_four_bits :
    ¬ (extract_components 0x40400000 12).trailing_zeroes ≤ 15 := by decide

/-! ### Fixed 3-byte output per element -/

theorem extract_components_widths (x n : Nat) :
    (extract_components x n).sign_bit ≤ 1 ∧ (extract_components x n).exponent_bits ≤ 255 ∧
    (extract_components x n).non_zero_mantissa ≤ 2047 := by
  rw [extract_components_eq]
  split
  · dsimp only
    omega
  · dsimp only
    omega

theorem encode_one_three_bytes (x n : Nat) :
    ∃ bs, encode_one x n = some bs ∧ bs.length = 3 := by
  obtain ⟨h1, h2, h3⟩ := extract_components_widths x n
  simp only [encode_one]
  unfold pack_components
  rw [pack_or_eq_sum _ _ _ _ h1 h2 h3]
  rw [to_bytes_3_be_eq (by omega)]
  exact ⟨_, rfl, rfl⟩

/-- Claim C7: encoding a sequence of `N` values always succeeds and produces
exactly `3 * N` bytes: every `pack_components` call on extractor output
returns exactly 3 bytes, independent of the value, of `num_bits`, and of the
special-value branch. -/
theorem encode_sequence_record_lengths (xs : List Nat) (n : Nat) :
    ∃ rs, encode_sequence xs n = some rs ∧ rs.length = xs.length ∧
      (∀ r ∈ rs, r.length = 3) ∧ (rs.map List.length).sum = 3 * xs.length := by
  induction xs with
  | nil => exact ⟨[], rfl, rfl, by simp, by simp⟩
  | cons x xs ih =>
    obtain ⟨rs, hrs, hlen, hall, hsum⟩ := ih
    obtain ⟨bs, hbs, hbs3⟩ := encode_one_three_bytes x n
    refine ⟨bs :: rs, ?_, by simp [hlen], ?_, ?_⟩
    · simp only [encode_sequence]
      rw [hbs, hrs]
    · intro r hr
      rcases List.mem_cons.mp hr with hr | hr
      · rw [hr]
        exact hbs3
      · exact hall r hr
    · simp only [List.map_cons, List.sum_cons, hbs3, hsum, List.length_cons]
      omega

/-! ### The round-trip contract -/

/-- Clearing at most 23 low bits commutes with adding a multiple of
`2 ^ 23`. -/
theorem clear_low_bits_add (c man n : Nat) (hn : n ≤ 23) (hc : 2 ^ 23 ∣ c) :
    (c + man) / 2 ^ n * 2 ^ n = c + man / 2 ^ n * 2 ^ n := by
  obtain ⟨q, rfl⟩ : 2 ^ n ∣ c := dvd_trans (pow_dvd_pow 2 hn) hc
  have hpos : 0 < 2 ^ n := Nat.pos_pow_of_pos n (by norm_num)
  rw [Nat.mul_add_div hpos]
  ring

/-- Claim C1 (amended): for a non-special 32-bit pattern `x` and every
truncation width `n ≤ 23`, whenever the cleared mantissa's odd part fits the
11-bit residual field and its trailing-zero count fits the 4-bit count
field, the full round trip returns exactly `x`'s bit pattern with its low
`n` mantissa bits zeroed; in particular, for `n = 0` it returns `x` itself
under the same two side conditions.  (As originally stated, with no side
conditions, the claim is false: the 11-bit residual mask and the 4-bit wrap
of the count both lose information.) -/
theorem roundtrip_zeroes_low_mantissa_bits (x n : Nat) (hx : x < 2 ^ 32) (hn : n ≤ 23)
    (hsp : ¬ ((x % 2 ^ 23 = 0 ∧ x / 2 ^ 23 % 256 = 0) ∨ x / 2 ^ 23 % 256 = 255))
    (hsh : (tzLoop (x % 2 ^ 23 / 2 ^ n * 2 ^ n)).2 < 2048)
    (ht : (tzLoop (x % 2 ^ 23 / 2 ^ n * 2 ^ n)).1 ≤ 15) :
    roundTripBits x n = some (x / 2 ^ n * 2 ^ n) := by
  have hmod : (tzLoop (x % 2 ^ 23 / 2 ^ n * 2 ^ n)).2 % 2048 =
      (tzLoop (x % 2 ^ 23 / 2 ^ n * 2 ^ n)).2 := Nat.mod_eq_of_lt hsh
  have hext : extract_components x n =
      ⟨x / 2 ^ 31 % 2, x / 2 ^ 23 % 256,
       (tzLoop (x % 2 ^ 23 / 2 ^ n * 2 ^ n)).2,
       (tzLoop (x % 2 ^ 23 / 2 ^ n * 2 ^ n)).1⟩ := by
    rw [extract_components_eq, if_neg hsp, hmod]
  have hmul := tzLoop_mul_pow (x % 2 ^ 23 / 2 ^ n * 2 ^ n)
  have hmzle : x % 2 ^ 23 / 2 ^ n * 2 ^ n ≤ x % 2 ^ 23 := Nat.div_mul_le_self _ _
  have hman : x % 2 ^ 23 < 2 ^ 23 := Nat.mod_lt _ (by norm_num)
  have hform := roundTrip_formula x n _ _ _ _ hext (by omega) (by omega) (by omega) ht
    (by rw [hmul]; omega)
  rw [hform, hmul]
  simp only [Option.some.injEq]
  have hxdecomp : x = (x / 2 ^ 31 % 2 * 2 ^ 8 + x / 2 ^ 23 % 256) * 2 ^ 23 + x % 2 ^ 23 := by
    omega
  have hclear := clear_low_bits_add ((x / 2 ^ 31 % 2 * 2 ^ 8 + x / 2 ^ 23 % 256) * 2 ^ 23)
    (x % 2 ^ 23) n hn ⟨x / 2 ^ 31 % 2 * 2 ^ 8 + x / 2 ^ 23 % 256, by ring⟩
  have key : x / 2 ^ n * 2 ^ n = (x / 2 ^ 31 % 2 * 2 ^ 8 + x / 2 ^ 23 % 256) * 2 ^ 23 +
      x % 2 ^ 23 / 2 ^ n * 2 ^ n := by
    conv_lhs => rw [hxdecomp]
    exact hclear
  rw [key]
  omega

/-- Counterexample to C1 as stated: `x = 0x3F801001` is finite and
non-special, yet the `n = 0` round trip returns `0x3F800001`, not `x` (whose
low 0 mantissa bits zeroed is `x` itself): the residual mantissa `0x1001` is
masked to its low 11 bits. -/
theorem roundtrip_loses_high_residual_bits :
    roundTripBits 0x3F801001 0 = some 0x3F800001 ∧
    (0x3F801001 : Nat) / 2 ^ 0 * 2 ^ 0 = 0x3F801001 ∧
    (0x3F800001 : Nat) ≠ 0x3F801001 := by decide

/-- Witness for the amended C1 at `x = 0x3F953000`, `n = 12`: the cleared
mantissa `0x153000` has 12 trailing zeros and odd part `0x153 < 2048`, and
the round trip reproduces `x` exactly. -/
theorem roundtrip_zeroes_low_mantissa_bits_witness :
    ((0x3F953000 : Nat) < 2 ^ 32 ∧ (12 : Nat) ≤ 23 ∧
      ¬ (((0x3F953000 : Nat) % 2 ^ 23 = 0 ∧ (0x3F953000 : Nat) / 2 ^ 23 % 256 = 0) ∨
          (0x3F953000 : Nat) / 2 ^ 23 % 256 = 255) ∧
      (tzLoop ((0x3F953000 : Nat) % 2 ^ 23 / 2 ^ 12 * 2 ^ 12)).2 < 2048 ∧
      (tzLoop ((0x3F953000 : Nat) % 2 ^ 23 / 2 ^ 12 * 2 ^ 12)).1 ≤ 15) ∧
    roundTripBits 0x3F953000 12 = some ((0x3F953000 : Nat) / 2 ^ 12 * 2 ^ 12) :=
  ⟨⟨by decide, by decide, by decide, by decide, by decide⟩,
    roundtrip_zeroes_low_mantissa_bits 0x3F953000 12 (by decide) (by decide) (by decide)
      (by decide) (by decide)⟩

/-! ### Loading a packed stream -/

/-- Claim C4 (amended): a packed stream whose length is not a multiple of 3
does not fail to load: `load_packed_from_file` reads every complete 3-byte
record and then also reads the trailing 1- or 2-byte chunk, appending it as
the big-endian integer of those bytes; no record is dropped and no error is
signalled. -/
theorem load_trailing_chunk : ∀ (bs : List Nat), bs.length % 3 ≠ 0 →
    ∃ pre, load_packed_from_stream bs =
        pre ++ [from_bytes_be (bs.drop (bs.length / 3 * 3))] ∧
      pre.length = bs.length / 3
  | [], h => absurd rfl h
  | [b0], _ => ⟨[], by simp [load_packed_from_stream], by simp⟩
  | [b0, b1], _ => ⟨[], by simp [load_packed_from_stream], by simp⟩
  | b0 :: b1 :: b2 :: rest, h => by
    have h3 : rest.length % 3 ≠ 0 := by
      simp only [List.length_cons] at h
      omega
    obtain ⟨pre, h1, h2⟩ := load_trailing_chunk rest h3
    have hdrop : (b0 :: b1 :: b2 :: rest).drop ((b0 :: b1 :: b2 :: rest).length / 3 * 3) =
        rest.drop (rest.length / 3 * 3) := by
      have hlen : (b0 :: b1 :: b2 :: rest).length / 3 * 3 = rest.length / 3 * 3 + 3 := by
        simp only [List.length_cons]
        omega
      rw [hlen]
      rfl
    refine ⟨from_bytes_be [b0, b1, b2] :: pre, ?_, ?_⟩
    · simp only [load_packed_from_stream, h1, hdrop, List.cons_append]
    · simp only [List.length_cons, h2]
      omega

/-- Counterexample to C4 as stated: the 4-byte stream
`[0x12, 0x34, 0x56, 0x78]` loads without any failure, yielding the complete
record `0x123456` followed by the accepted 1-byte partial record `0x78`. -/
theorem load_accepts_trailing_bytes :
    load_packed_from_stream [0x12, 0x34, 0x56, 0x78] = [0x123456, 0x78] := by decide

/-- Witness for the amended C4 at the 4-byte stream `[0x12, 0x34, 0x56, 0x78]`. -/
theorem load_trailing_chunk_witness :
    ([0x12, 0x34, 0x56, 0x78] : List Nat).length % 3 ≠ 0 ∧
    ∃ pre, load_packed_from_stream [0x12, 0x34, 0x56, 0x78] =
        pre ++ [from_bytes_be (([0x12, 0x34, 0x56, 0x78] : List Nat).drop
          (([0x12, 0x34, 0x56, 0x78] : List Nat).length / 3 * 3))] ∧
      pre.length = ([0x12, 0x34, 0x56, 0x78] : List Nat).length / 3 :=
  ⟨by decide, load_trailing_chunk [0x12, 0x34, 0x56, 0x78] (by decide)⟩
